import Mathlib

/-!
# Word-frequency colouring (`app.js`)

A shallow embedding of the four exported functions of `app.js`
(`getWordCounts`, `colorWord`, `printColoredLines` and the tokenising
expression `s.split(/\W+/).filter(Boolean)` they share), together with the
fragment of the JavaScript semantics those functions rely on.

Modelling conventions.

* A JavaScript string is modelled by a Lean `String`, whose `data` is the list
  of its characters.  The program only ever distinguishes the ASCII word
  characters `[A-Za-z0-9_]` and the line feed from everything else, and text
  read with `fs.readFileSync (.., 'utf8')` holds no lone surrogate, so reading
  a text as a list of code points instead of UTF-16 code units changes neither
  the tokens nor the lines.
* A JavaScript number is modelled by an integer.  Every number the program
  computes is a token count, bounded by the length of a string, far below
  `2 ^ 53`, where double arithmetic on integers is exact.
* A plain object (`{}`) is modelled by the list of its own properties in
  insertion order; its prototype is `Object.prototype`.
* `console.log` is modelled by collecting the logged lines in a list.
* The `chalk` library is a parameter (`Chalk`): three functions on strings.
-/

namespace WordCount

/-! ## Tokenising: `s.split(/\W+/).filter(Boolean)` -/

/-- The class `\w` of a regular expression without flags: an ASCII letter, an
ASCII digit or the underscore. -/
def isWordChar (c : Char) : Bool :=
  c.isAlphanum || c == '_'

/-- One sticky execution of `/\W+/` at the start of `s`: the match fails when
`s` is empty or starts with a word character; otherwise the greedy `+` consumes
the whole run of non-word characters, and the text after the match is
returned. -/
def execNonWordRun : List Char → Option (List Char)
  | [] => none
  | c :: rest =>
    if isWordChar c then none else some (rest.dropWhile (fun d => !isWordChar d))

/-- The loop of `RegExp.prototype[Symbol.split]` for `/\W+/`.  `cur` is the
text between the end `p` of the last separator and the scan position `q`,
`rest` the text from `q` on.  A failed match advances `q` by one character; a
successful one pushes `cur` and restarts right after the separator.  When the
scan reaches the end of the text the last piece is pushed.  The first argument
bounds the number of iterations, as `q < size` does. -/
def splitLoop : Nat → List Char → List Char → List (List Char)
  | 0, cur, _ => [cur]
  | _ + 1, cur, [] => [cur]
  | fuel + 1, cur, c :: rest =>
    match execNonWordRun (c :: rest) with
    | none => splitLoop fuel (cur ++ [c]) rest
    | some after => cur :: splitLoop fuel [] after

/-- The pieces of `s.split(/\W+/)`.  The empty text yields the single piece
`""`, since `/\W+/` does not match the empty string. -/
def splitNonWord (s : String) : List String :=
  (splitLoop s.data.length [] s.data).map String.mk

/-- The tokens `s.split(/\W+/).filter(Boolean)`: the pieces that are truthy,
that is, the non-empty ones. -/
def tokenize (s : String) : List String :=
  (splitNonWord s).filter (fun piece => piece.data ≠ [])

/-- The method `toLowerCase` on a token.  A token holds ASCII word characters
only, on which the Unicode lower-casing of JavaScript is the ASCII one:
`A`..`Z` go to `a`..`z`, every other word character stays. -/
def toLowerCase (s : String) : String :=
  String.mk (s.data.map Char.toLower)

/-! ## Values and plain objects -/

/-- The JavaScript values the program can meet: `undefined`, the number `NaN`,
an integer-valued number, a string, a built-in function inherited from
`Object.prototype` (known by its name), and `Object.prototype` itself. -/
inductive JSVal where
  | undefined : JSVal
  | nan : JSVal
  | num (n : Int) : JSVal
  | str (s : String) : JSVal
  | nativeFn (name : String) : JSVal
  | objectPrototype : JSVal
  deriving DecidableEq, Repr

/-- A plain object: its own properties, in insertion order. -/
abbrev JSObject := List (String × JSVal)

/-- The names of the built-in methods of `Object.prototype` other than
`constructor`. -/
def objectPrototypeMethods : List String :=
  ["__defineGetter__", "__defineSetter__", "hasOwnProperty", "__lookupGetter__",
   "__lookupSetter__", "isPrototypeOf", "propertyIsEnumerable", "toString",
   "valueOf", "toLocaleString"]

/-- Reading property `key` of `Object.prototype` through a plain object:
`constructor` is the function `Object`, the accessor `__proto__` returns the
prototype of the receiver, which is `Object.prototype`, the built-in methods
are functions, and every other name is `undefined`. -/
def objectPrototypeGet (key : String) : JSVal :=
  if key = "constructor" then JSVal.nativeFn "Object"
  else if key = "__proto__" then JSVal.objectPrototype
  else if key ∈ objectPrototypeMethods then JSVal.nativeFn key
  else JSVal.undefined

/-- The own property `key` of `obj`, if there is one. -/
def getOwn (obj : JSObject) (key : String) : Option JSVal :=
  obj.lookup key

/-- The expression `obj[key]`: the own property when there is one, otherwise
the property inherited from `Object.prototype`. -/
def get (obj : JSObject) (key : String) : JSVal :=
  match getOwn obj key with
  | some v => v
  | none => objectPrototypeGet key

/-- The assignment `obj[key] = v` of a primitive value `v` (a number or a
string, as the result of `+` is).  An own property is overwritten in place.
Otherwise the prototype chain decides: `__proto__` is an accessor of
`Object.prototype` whose setter ignores a primitive value, so nothing is
stored; every other inherited property is a writable data property, and as for
a name that is not inherited, a new own property is added at the end. -/
def set (obj : JSObject) (key : String) (v : JSVal) : JSObject :=
  if (getOwn obj key).isSome then
    obj.map (fun kv => if kv.1 = key then (kv.1, v) else kv)
  else if key = "__proto__" then obj
  else obj ++ [(key, v)]

/-- The conversion `ToBoolean`. -/
def toBoolean : JSVal → Bool
  | JSVal.undefined => false
  | JSVal.nan => false
  | JSVal.num n => n ≠ 0
  | JSVal.str s => s.data ≠ []
  | JSVal.nativeFn _ => true
  | JSVal.objectPrototype => true

/-- The expression `a || b`. -/
def orElse (a b : JSVal) : JSVal :=
  if toBoolean a then a else b

/-- The conversion `ToPrimitive`: a built-in function becomes its source text
and `Object.prototype` becomes `[object Object]`; a primitive is unchanged. -/
def toPrimitive : JSVal → JSVal
  | JSVal.nativeFn name => JSVal.str ("function " ++ name ++ "() \x7b [native code] \x7d")
  | JSVal.objectPrototype => JSVal.str "[object Object]"
  | v => v

/-- The expression `v + 1`: after `ToPrimitive`, a string is concatenated with
`"1"`, a number is incremented, and `undefined + 1` is `NaN`. -/
def addOne (v : JSVal) : JSVal :=
  match toPrimitive v with
  | JSVal.str s => JSVal.str (s ++ "1")
  | JSVal.num n => JSVal.num (n + 1)
  | _ => JSVal.nan

/-! ## `getWordCounts` -/

/-- The function `getWordCounts` (`app.js`, lines 18-28): starting from `{}`,
each token is lower-cased and `wordCount[word] = (wordCount[word] || 0) + 1`
is executed. -/
def getWordCounts (content : String) : JSObject :=
  (tokenize content).foldl
    (fun wordCount word =>
      let word := toLowerCase word
      set wordCount word (addOne (orElse (get wordCount word) (JSVal.num 0))))
    []

/-! ## `colorWord` -/

/-- The three styling functions of the `chalk` library that `colorWord` uses.
What they do to a string (wrap it in escape codes, or nothing when the
terminal has no colours) is left to the library. -/
structure Chalk where
  /-- The function `chalk.blue`. -/
  blue : String → String
  /-- The function `chalk.green`. -/
  green : String → String
  /-- The function `chalk.red`. -/
  red : String → String

/-- The styling of `chalk` on a terminal with colours: the text between the
escape code of the colour and the code that resets the foreground. -/
def ansiChalk : Chalk where
  blue := fun w => "\x1b[34m" ++ w ++ "\x1b[39m"
  green := fun w => "\x1b[32m" ++ w ++ "\x1b[39m"
  red := fun w => "\x1b[31m" ++ w ++ "\x1b[39m"

/-- White space and line terminators of JavaScript, by code point. -/
def isJSWhiteSpace (c : Char) : Bool :=
  c.toNat ∈ [0x9, 0xA, 0xB, 0xC, 0xD, 0x20, 0xA0, 0x1680, 0x2028, 0x2029, 0x202F,
    0x205F, 0x3000, 0xFEFF] || (0x2000 ≤ c.toNat && c.toNat ≤ 0x200A)

/-- The text without its leading and trailing white space. -/
def trimWhiteSpace (s : List Char) : List Char :=
  ((s.dropWhile isJSWhiteSpace).reverse.dropWhile isJSWhiteSpace).reverse

/-- The value of a non-empty sequence of decimal digits, read left to right
onto the accumulator `acc`; `none` for any other text. -/
def digitsValue : Nat → List Char → Option Nat
  | _, [] => none
  | acc, [c] => if c.isDigit then some (acc * 10 + (c.toNat - 48)) else none
  | acc, c :: d :: rest =>
    if c.isDigit then digitsValue (acc * 10 + (c.toNat - 48)) (d :: rest) else none

/-- The conversion `StringToNumber`, read for decimal integers only: the
empty or blank string is `0`, a decimal integer with an optional sign is its
value, and every other text is taken as no numeral, `NaN` (`none`).  That is
what JavaScript does except on a numeral with a fraction, an exponent, a radix
prefix, or `Infinity`, whose value is a double this model of numbers does not
hold; the program builds no such string: every string it stores starts with
the text of an inherited object (see `toPrimitive`), which is no numeral. -/
def stringToNumber (s : String) : Option Int :=
  match trimWhiteSpace s.data with
  | [] => some 0
  | '+' :: ds => (digitsValue 0 ds).map Int.ofNat
  | '-' :: ds => (digitsValue 0 ds).map (fun n => -Int.ofNat n)
  | ds => (digitsValue 0 ds).map Int.ofNat

/-- The conversion `ToNumber`; `none` stands for `NaN`.  An object is first
converted by `ToPrimitive`. -/
def toNumber (v : JSVal) : Option Int :=
  match toPrimitive v with
  | JSVal.num n => some n
  | JSVal.str s => stringToNumber s
  | _ => none

/-- The comparison `v >= k` with a number `k`: false when `v` converts to
`NaN`. -/
def geNum (v : JSVal) (k : Int) : Bool :=
  match toNumber v with
  | some n => decide (k ≤ n)
  | none => false

/-- The comparison `v <= k` with a number `k`: false when `v` converts to
`NaN`. -/
def leNum (v : JSVal) (k : Int) : Bool :=
  match toNumber v with
  | some n => decide (n ≤ k)
  | none => false

/-- The comparison `v > k` with a number `k`: false when `v` converts to
`NaN`. -/
def gtNum (v : JSVal) (k : Int) : Bool :=
  match toNumber v with
  | some n => decide (k < n)
  | none => false

/-- The function `colorWord` (`app.js`, lines 39-49).  `count === 1` holds for
the number 1 only. -/
def colorWord (chalk : Chalk) (word : String) (count : JSVal) : String :=
  if count = JSVal.num 1 then chalk.blue word
  else if geNum count 2 && leNum count 5 then chalk.green word
  else if gtNum count 5 then chalk.red word
  else word

/-! ## `printColoredLines` -/

/-- The loop of `s.split('\n')`: `cur` is the text since the last line feed,
`rest` the text still to scan.  Each line feed closes a piece; the end of the
text closes the last one. -/
def splitLinesLoop : List Char → List Char → List (List Char)
  | cur, [] => [cur]
  | cur, c :: rest =>
    if c = '\n' then cur :: splitLinesLoop [] rest else splitLinesLoop (cur ++ [c]) rest

/-- The pieces of `s.split('\n')`. -/
def splitLines (s : String) : List String :=
  (splitLinesLoop [] s.data).map String.mk

/-- The loop of `Array.prototype.join`: before every element but the first
(index `k > 0`) the separator is appended to the result `r`, then the
element. -/
def joinLoop (sep : String) : Nat → String → List String → String
  | _, r, [] => r
  | k, r, x :: xs => joinLoop sep (k + 1) ((if 0 < k then r ++ sep else r) ++ x) xs

/-- The method `xs.join(sep)` on an array of strings. -/
def join (xs : List String) (sep : String) : String :=
  joinLoop sep 0 "" xs

/-- The callback of `wordsInLine.map` (`app.js`, lines 66-70). -/
def colorToken (chalk : Chalk) (wordCounts : JSObject) (originalWord : String) : String :=
  let lowerWord := toLowerCase originalWord
  let frequency := orElse (get wordCounts lowerWord) (JSVal.num 0)
  colorWord chalk originalWord frequency

/-- The body of the loop of `printColoredLines` (`app.js`, lines 62-74): the
text passed to `console.log` for one line. -/
def outputLine (chalk : Chalk) (wordCounts : JSObject) (line : String) : String :=
  let wordsInLine := tokenize line
  let colored := wordsInLine.map (colorToken chalk wordCounts)
  join colored " " ++ " "

/-- The function `printColoredLines` (`app.js`, lines 57-76): the texts passed
to `console.log`, in order. -/
def printColoredLines (chalk : Chalk) (content : String) (wordCounts : JSObject) :
    List String :=
  ((splitLines content).take 15).map (outputLine chalk wordCounts)

/-- The function `processFile` (`app.js`, lines 84-88) on the content that
`readFileContent` returned. -/
def processFile (chalk : Chalk) (content : String) : List String :=
  printColoredLines chalk content (getWordCounts content)

/-- The count of a key as the specification reads a Frequency Map: the value
stored in the map under the key, or 0 when the map has no such key. -/
def storedCount (wordCounts : JSObject) (key : String) : JSVal :=
  match getOwn wordCounts key with
  | some c => c
  | none => JSVal.num 0

/-! ## The tokens as the specification words them -/

/-- Whether position `i` of the text holds a word character. -/
def isWordAt (t : List Char) (i : Nat) : Bool :=
  match t[i]? with
  | some c => isWordChar c
  | none => false

/-- Whether a maximal run of word characters starts at position `i`: a word
character stands there, and none stands right before it. -/
def startsRun (t : List Char) (i : Nat) : Bool :=
  isWordAt t i && (i == 0 || !isWordAt t (i - 1))

/-- The maximal runs of word characters of a text, as the specification
describes a token: for every position where a run starts, from left to right,
the longest stretch of word characters from that position on. -/
def maximalWordRuns (s : String) : List String :=
  ((List.range s.data.length).filter (startsRun s.data)).map
    (fun i => String.mk ((s.data.drop i).takeWhile isWordChar))

/-! ## Auxiliary definitions of the proofs -/

/-- The runs of word characters that start inside `t`, where `prev` tells
whether the character before `t` is a word character. -/
def runsAfter : Bool → List Char → List (List Char)
  | _, [] => []
  | prev, c :: t =>
    (if isWordChar c && !prev then [(c :: t).takeWhile isWordChar] else [])
      ++ runsAfter (isWordChar c) t

/-- The piece under construction, once the word characters ahead are added to
it, when it is not empty. -/
def pendingPiece (cur rest : List Char) : List (List Char) :=
  if cur ++ rest.takeWhile isWordChar = [] then [] else [cur ++ rest.takeWhile isWordChar]

/-- The predicate `startsRun` for a text that follows a character whose class
is `prev`. -/
def startsRunAfter (prev : Bool) (t : List Char) (i : Nat) : Bool :=
  isWordAt t i && (if i = 0 then !prev else !isWordAt t (i - 1))

/-! ## Display categories -/

/-- The Display Category of the specification: the three tiers, and `none`
for a word that is emitted unstyled. -/
inductive Category where
  | none : Category
  | rare : Category
  | common : Category
  | frequent : Category
  deriving DecidableEq, Repr

/-- The position of a category in the order `none < rare < common <
frequent`. -/
def Category.rank : Category → Nat
  | Category.none => 0
  | Category.rare => 1
  | Category.common => 2
  | Category.frequent => 3

/-- The styling of a category: blue for `rare`, green for `common`, red for
`frequent`, and the word as it is for `none`. -/
def applyCategory (chalk : Chalk) (cat : Category) (word : String) : String :=
  match cat with
  | Category.none => word
  | Category.rare => chalk.blue word
  | Category.common => chalk.green word
  | Category.frequent => chalk.red word

/-- The Frequency Classifier as the specification words it (section 4.3):
`rare` for the count 1, `common` from 2 to 5, `frequent` above 5, and `none`
for every other integer. -/
def classify (count : Int) : Category :=
  if count = 1 then Category.rare
  else if 2 ≤ count ∧ count ≤ 5 then Category.common
  else if 5 < count then Category.frequent
  else Category.none

/-- Styling taken as the identity: no colour codes, as `chalk` does on a
terminal without colours. -/
def plainChalk : Chalk where
  blue := fun w => w
  green := fun w => w
  red := fun w => w

/-! ## Closed form of `getWordCounts`, and key enumeration -/

/-- One turn of the loop of `getWordCounts`, on the lower-cased word. -/
def countStep (wordCount : JSObject) (word : String) : JSObject :=
  set wordCount word (addOne (orElse (get wordCount word) (JSVal.num 0)))

/-- The distinct elements of a list, each at the place of its first
occurrence. -/
def firstOccurrences : List String → List String
  | [] => []
  | k :: ks => k :: (firstOccurrences ks).filter (fun j => j ≠ k)

/-- The value that the loop of `getWordCounts` has stored under `key` after
`n ≥ 1` occurrences of it: the number `n`, unless `Object.prototype` has a
property of that name, in which case it is the text of that property followed
by `n` characters `1`. -/
def countValue (key : String) (n : Nat) : JSVal :=
  match toPrimitive (objectPrototypeGet key) with
  | JSVal.str s => JSVal.str (s ++ String.mk (List.replicate n '1'))
  | _ => JSVal.num n

/-- The number written by a sequence of decimal digits, read left to right
onto `acc`. -/
def decimalValue : Nat → List Char → Nat
  | acc, [] => acc
  | acc, c :: rest => decimalValue (acc * 10 + (c.toNat - 48)) rest

/-- The numeric value of a key made of decimal digits. -/
def indexValue (key : String) : Nat :=
  decimalValue 0 key.data

/-- Whether a property key is an array index: the canonical decimal numeral
(digits only, no leading zero except for `0` itself) of an integer below
`2 ^ 32 - 1`. -/
def isArrayIndex (key : String) : Bool :=
  match key.data with
  | [] => false
  | c :: rest =>
    (c :: rest).all Char.isDigit && (c != '0' || rest.isEmpty)
      && decide (indexValue key < 2 ^ 32 - 1)

/-- The order in which the own keys of a plain object are enumerated (by
`Object.keys`, `Object.entries`, `for ... in`): first the array indices in
ascending numeric order, then the other keys in insertion order. -/
def ownKeys (obj : JSObject) : List String :=
  ((obj.map Prod.fst).filter isArrayIndex).insertionSort
      (fun a b => indexValue a ≤ indexValue b)
    ++ (obj.map Prod.fst).filter (fun k => !isArrayIndex k)

/-- The object that `getWordCounts` builds from the lower-cased tokens `ks`:
one property for each distinct token other than `__proto__`, in the order of
the first occurrences, holding `countValue` at the number of occurrences. -/
def wordCountsOf (ks : List String) : JSObject :=
  (firstOccurrences (ks.filter (fun k => k ≠ "__proto__"))).map
    (fun k => (k, countValue k (ks.count k)))

/-- The count a Frequency Map gives to a key, read as a number: the stored
number, and 0 when the key is missing (or holds no number). -/
def numericCount (wordCounts : JSObject) (key : String) : Int :=
  match getOwn wordCounts key with
  | some (JSVal.num n) => n
  | _ => 0

/-- The words of a list, each followed by one space. -/
def spaced : List (List Char) → List Char
  | [] => []
  | w :: ws => w ++ ' ' :: spaced ws

/-! ## Changing the case of a whole text -/

/-- A text with every ASCII capital letter replaced by its small letter. -/
def lowerAsciiLetters (s : String) : String :=
  String.mk (s.data.map Char.toLower)

/-- A text with every ASCII small letter replaced by its capital letter. -/
def upperAsciiLetters (s : String) : String :=
  String.mk (s.data.map Char.toUpper)

/-- The lower-case form of one character in JavaScript (`toLowerCase`), as far
as the word characters can tell: an ASCII capital becomes its small letter;
U+0130 (capital I with dot above) becomes `i` followed by U+0307, and U+212A
(Kelvin sign) becomes `k`.  Every other character outside ASCII has a
lower-case form outside ASCII, a non-word character like itself, and is left
as it is here. -/
def lowerCaseChar (c : Char) : List Char :=
  if c = Char.ofNat 0x130 then ['i', Char.ofNat 0x307]
  else if c = Char.ofNat 0x212A then ['k']
  else [c.toLower]

/-- The method `toLowerCase` applied to a whole text, character by character
(see `lowerCaseChar`). -/
def toLowerCaseText (s : String) : String :=
  String.mk (s.data.flatMap lowerCaseChar)

end WordCount

namespace WordCount

/-! ## Lemmas on the tokenizer -/

theorem isWordAt_cons_succ (c : Char) (t : List Char) (i : Nat) :
    isWordAt (c :: t) (i + 1) = isWordAt t i := by
  simp [isWordAt]

theorem isWordAt_cons_zero (c : Char) (t : List Char) :
    isWordAt (c :: t) 0 = isWordChar c := by
  simp [isWordAt]

theorem startsRunAfter_cons_succ (prev : Bool) (c : Char) (t : List Char) (i : Nat) :
    startsRunAfter prev (c :: t) (i + 1) = startsRunAfter (isWordChar c) t i := by
  cases i with
  | zero => simp [startsRunAfter, isWordAt_cons_succ, isWordAt_cons_zero]
  | succ j => simp [startsRunAfter, isWordAt_cons_succ]

theorem startsRun_eq_startsRunAfter (t : List Char) :
    startsRun t = startsRunAfter false t := by
  funext i
  cases i <;> simp [startsRun, startsRunAfter]

/-- The runs listed by position are the runs listed by recursion on the
text. -/
theorem runsByPosition_eq_runsAfter (t : List Char) :
    ∀ prev : Bool,
      ((List.range t.length).filter (startsRunAfter prev t)).map
        (fun i => (t.drop i).takeWhile isWordChar) = runsAfter prev t := by
  induction t with
  | nil => intro prev; simp [runsAfter]
  | cons c t ih =>
    intro prev
    have hrange : List.range (c :: t).length
        = 0 :: (List.range t.length).map Nat.succ := by
      simp [List.range_succ_eq_map]
    rw [hrange, List.filter_cons, List.filter_map, runsAfter, ← ih (isWordChar c)]
    have hfun : (startsRunAfter prev (c :: t) ∘ Nat.succ)
        = startsRunAfter (isWordChar c) t := by
      funext i
      exact startsRunAfter_cons_succ prev c t i
    rw [hfun]
    have hzero : startsRunAfter prev (c :: t) 0 = (isWordChar c && !prev) := by
      simp [startsRunAfter, isWordAt_cons_zero]
    rw [hzero]
    cases h : (isWordChar c && !prev) <;> simp [List.map_map, Function.comp_def]

theorem runsAfter_false_dropWhile (t : List Char) :
    runsAfter false (t.dropWhile (fun d => !isWordChar d)) = runsAfter false t := by
  induction t with
  | nil => rfl
  | cons c t ih =>
    cases h : isWordChar c
    · rw [List.dropWhile_cons_of_pos (by simp [h]), ih]
      simp [runsAfter, h]
    · rw [List.dropWhile_cons_of_neg (by simp [h])]

theorem runsAfter_false_eq (t : List Char) :
    runsAfter false t = pendingPiece [] t ++ runsAfter true t := by
  cases t with
  | nil => simp [runsAfter, pendingPiece]
  | cons c t =>
    cases h : isWordChar c <;> simp [runsAfter, pendingPiece, h]

/-- The non-empty pieces of the split loop: the piece under construction,
completed by the word characters ahead, then the runs that start further on.
The bound `rest.length ≤ fuel` is what `splitNonWord` provides. -/
theorem splitLoop_filter (fuel : Nat) :
    ∀ cur rest : List Char, rest.length ≤ fuel →
      (splitLoop fuel cur rest).filter (fun piece => piece ≠ [])
        = pendingPiece cur rest ++ runsAfter true rest := by
  induction fuel with
  | zero =>
    intro cur rest hlen
    have hrest : rest = [] := List.eq_nil_of_length_eq_zero (Nat.le_zero.mp hlen)
    subst hrest
    cases cur <;> simp [splitLoop, pendingPiece, runsAfter]
  | succ fuel ih =>
    intro cur rest hlen
    cases rest with
    | nil => cases cur <;> simp [splitLoop, pendingPiece, runsAfter]
    | cons c rest =>
      have hlen2 : rest.length ≤ fuel := by simpa using hlen
      cases h : isWordChar c
      · have hdrop : (rest.dropWhile (fun d => !isWordChar d)).length ≤ fuel :=
          le_trans (List.dropWhile_sublist _).length_le hlen2
        simp only [splitLoop, execNonWordRun, h, Bool.false_eq_true, if_false]
        rw [List.filter_cons, ih [] _ hdrop, ← runsAfter_false_eq,
          runsAfter_false_dropWhile]
        cases cur <;> simp [pendingPiece, runsAfter, h]
      · simp only [splitLoop, execNonWordRun, h, if_true]
        rw [ih (cur ++ [c]) rest hlen2]
        simp [pendingPiece, runsAfter, h]

theorem tokenize_eq_runsAfter (s : String) :
    tokenize s = (runsAfter false s.data).map String.mk := by
  have hfilter : ((fun piece : String => decide (piece.data ≠ [])) ∘ String.mk)
      = fun piece : List Char => decide (piece ≠ []) := by
    funext piece
    rfl
  unfold tokenize splitNonWord
  rw [List.filter_map, hfilter, splitLoop_filter _ _ _ (le_refl _), ← runsAfter_false_eq]

theorem runsAfter_mem (t : List Char) :
    ∀ (prev : Bool) (r : List Char), r ∈ runsAfter prev t →
      r ≠ [] ∧ ∀ c ∈ r, isWordChar c = true := by
  induction t with
  | nil => intro prev r hr; simp [runsAfter] at hr
  | cons c t ih =>
    intro prev r hr
    rw [runsAfter, List.mem_append] at hr
    rcases hr with hr | hr
    · cases h : (isWordChar c && !prev)
      · simp [h] at hr
      · have hc : isWordChar c = true := by
          cases hw : isWordChar c
          · simp [hw] at h
          · rfl
        rw [h] at hr
        simp only [if_true, List.mem_singleton] at hr
        subst hr
        refine ⟨by rw [List.takeWhile_cons_of_pos hc]; exact List.cons_ne_nil _ _, ?_⟩
        intro d hd
        exact (List.mem_takeWhile_imp hd)
    · exact ih _ r hr

theorem runsAfter_eq_nil (t : List Char) (h : ∀ c ∈ t, isWordChar c = false) :
    ∀ prev : Bool, runsAfter prev t = [] := by
  induction t with
  | nil => intro prev; rfl
  | cons c t ih =>
    intro prev
    have hc : isWordChar c = false := h c (List.mem_cons_self _ _)
    have ht : ∀ d ∈ t, isWordChar d = false := fun d hd => h d (List.mem_cons_of_mem _ hd)
    simp [runsAfter, hc, ih ht]

/-! ## The tokenizer -/

/-- C5: for every text, the tokens `split(/\W+/).filter(Boolean)` are exactly
the maximal runs of word characters of the text, in left-to-right order. -/
theorem tokenize_eq_maximalWordRuns (s : String) :
    tokenize s = maximalWordRuns s := by
  rw [tokenize_eq_runsAfter, maximalWordRuns, startsRun_eq_startsRunAfter,
    ← runsByPosition_eq_runsAfter, List.map_map]
  rfl

/-- C6: for every text, every token is a non-empty string, and each of its
characters is a word character (an ASCII letter, an ASCII digit or the
underscore). -/
theorem tokenize_nonempty_word (s t : String) (ht : t ∈ tokenize s) :
    t ≠ "" ∧ ∀ c ∈ t.data, (c.isAlpha ∨ c.isDigit ∨ c = '_') := by
  rw [tokenize_eq_runsAfter, List.mem_map] at ht
  obtain ⟨r, hr, rfl⟩ := ht
  obtain ⟨hne, hall⟩ := runsAfter_mem _ _ _ hr
  refine ⟨fun h => hne (congrArg String.data h), ?_⟩
  intro c hc
  have hw := hall c hc
  simp only [isWordChar, Char.isAlphanum, Bool.or_eq_true, beq_iff_eq] at hw
  tauto

/-- Witness of C6 on the text `cat, dog` and its token `dog`. -/
theorem tokenize_nonempty_word_witness :
    "dog" ∈ tokenize "cat, dog" ∧
      ("dog" ≠ "" ∧ ∀ c ∈ "dog".data, (c.isAlpha ∨ c.isDigit ∨ c = '_')) :=
  ⟨by decide, tokenize_nonempty_word "cat, dog" "dog" (by decide)⟩

/-! ## The classifier `colorWord` -/

theorem toNumber_num (n : Int) : toNumber (JSVal.num n) = some n := rfl

/-- The function `colorWord` on an integer count, as one case distinction on
the integer. -/
theorem colorWord_num (chalk : Chalk) (w : String) (c : Int) :
    colorWord chalk w (JSVal.num c)
      = if c = 1 then chalk.blue w
        else if 2 ≤ c ∧ c ≤ 5 then chalk.green w
        else if 5 < c then chalk.red w
        else w := by
  simp only [colorWord, geNum, leNum, gtNum, toNumber_num, JSVal.num.injEq,
    Bool.and_eq_true, decide_eq_true_eq]

/-- C3: for every word `w` and every integer count `c`, `colorWord` renders
`w` in blue when `c = 1`, in green when `2 ≤ c ≤ 5` and in red when `c > 5`;
for `c ≥ 1` exactly one of the three cases applies. -/
theorem colorWord_by_count (chalk : Chalk) (w : String) (c : Int) :
    (c = 1 → colorWord chalk w (JSVal.num c) = chalk.blue w) ∧
    (2 ≤ c ∧ c ≤ 5 → colorWord chalk w (JSVal.num c) = chalk.green w) ∧
    (5 < c → colorWord chalk w (JSVal.num c) = chalk.red w) ∧
    (1 ≤ c →
      (c = 1 ∧ ¬(2 ≤ c ∧ c ≤ 5) ∧ ¬(5 < c)) ∨
      (c ≠ 1 ∧ (2 ≤ c ∧ c ≤ 5) ∧ ¬(5 < c)) ∨
      (c ≠ 1 ∧ ¬(2 ≤ c ∧ c ≤ 5) ∧ 5 < c)) := by
  rw [colorWord_num]
  refine ⟨?_, ?_, ?_, ?_⟩
  · intro h
    rw [if_pos h]
  · intro h
    have h1 : c ≠ 1 := by omega
    rw [if_neg h1, if_pos h]
  · intro h
    have h1 : c ≠ 1 := by omega
    have h2 : ¬(2 ≤ c ∧ c ≤ 5) := by omega
    rw [if_neg h1, if_neg h2, if_pos h]
  · intro h
    omega

/-- Witness of C3 at the counts 1, 3 and 6 of the word `cat`, with the
escape codes of a colour terminal; at the count 3 only the middle case
applies. -/
theorem colorWord_by_count_witness :
    colorWord ansiChalk "cat" (JSVal.num 1) = "\x1b[34mcat\x1b[39m" ∧
    colorWord ansiChalk "cat" (JSVal.num 3) = "\x1b[32mcat\x1b[39m" ∧
    colorWord ansiChalk "cat" (JSVal.num 6) = "\x1b[31mcat\x1b[39m" ∧
    (((3 : Int) = 1 ∧ ¬(2 ≤ (3 : Int) ∧ (3 : Int) ≤ 5) ∧ ¬(5 < (3 : Int))) ∨
      ((3 : Int) ≠ 1 ∧ (2 ≤ (3 : Int) ∧ (3 : Int) ≤ 5) ∧ ¬(5 < (3 : Int))) ∨
      ((3 : Int) ≠ 1 ∧ ¬(2 ≤ (3 : Int) ∧ (3 : Int) ≤ 5) ∧ 5 < (3 : Int))) :=
  ⟨(colorWord_by_count ansiChalk "cat" 1).1 rfl,
   (colorWord_by_count ansiChalk "cat" 3).2.1 ⟨by decide, by decide⟩,
   (colorWord_by_count ansiChalk "cat" 6).2.2.1 (by decide),
   (colorWord_by_count ansiChalk "cat" 3).2.2.2 (by decide)⟩

/-- C4: `colorWord` is defined on every non-negative integer count: for the
count 0 it returns the word itself, unchanged, and for every other
non-negative integer one of the three styled forms of the word. -/
theorem colorWord_nonneg (chalk : Chalk) (w : String) (n : Nat) :
    (n = 0 → colorWord chalk w (JSVal.num n) = w) ∧
    (n ≠ 0 → colorWord chalk w (JSVal.num n) = chalk.blue w ∨
      colorWord chalk w (JSVal.num n) = chalk.green w ∨
      colorWord chalk w (JSVal.num n) = chalk.red w) := by
  rw [colorWord_num]
  constructor
  · intro h
    subst h
    simp
  · intro h
    by_cases h1 : (n : Int) = 1
    · left
      rw [if_pos h1]
    · by_cases h2 : 2 ≤ (n : Int) ∧ (n : Int) ≤ 5
      · right; left
        rw [if_neg h1, if_pos h2]
      · right; right
        have h3 : 5 < (n : Int) := by omega
        rw [if_neg h1, if_neg h2, if_pos h3]

/-- Witness of C4 at the counts 0 and 4 of the word `cat`. -/
theorem colorWord_nonneg_witness :
    colorWord ansiChalk "cat" (JSVal.num (0 : Nat)) = "cat" ∧
    (colorWord ansiChalk "cat" (JSVal.num (4 : Nat)) = ansiChalk.blue "cat" ∨
      colorWord ansiChalk "cat" (JSVal.num (4 : Nat)) = ansiChalk.green "cat" ∨
      colorWord ansiChalk "cat" (JSVal.num (4 : Nat)) = ansiChalk.red "cat") :=
  ⟨(colorWord_nonneg ansiChalk "cat" 0).1 rfl,
   (colorWord_nonneg ansiChalk "cat" 4).2 (by decide)⟩

/-! ## The line renderer `printColoredLines` -/

/-- A count that is not the number 1 and converts to `NaN` passes every test
of `colorWord`: the word comes back as it is. -/
theorem colorWord_of_toNumber_none (chalk : Chalk) (w : String) (v : JSVal)
    (h : toNumber v = none) : colorWord chalk w v = w := by
  have h1 : v ≠ JSVal.num 1 := by
    intro hv
    rw [hv, toNumber_num] at h
    cases h
  simp [colorWord, geNum, leNum, gtNum, h, h1]

/-- Every value inherited from `Object.prototype` converts to `NaN`. -/
theorem toNumber_objectPrototypeGet (key : String) :
    toNumber (objectPrototypeGet key) = none := by
  unfold objectPrototypeGet
  split
  · decide
  · split
    · decide
    · split
      · rename_i h
        simp only [objectPrototypeMethods, List.mem_cons, List.mem_singleton,
          List.mem_nil_iff, or_false] at h
        rcases h with h | h | h | h | h | h | h | h | h | h <;> subst h <;> decide
      · rfl

/-- A falsy count leaves the word as it is, as the count 0 does. -/
theorem colorWord_of_falsy (chalk : Chalk) (w : String) (v : JSVal)
    (h : toBoolean v = false) : colorWord chalk w v = w := by
  cases v with
  | undefined => exact colorWord_of_toNumber_none chalk w _ rfl
  | nan => exact colorWord_of_toNumber_none chalk w _ rfl
  | num n =>
    have hn : n = 0 := by simpa [toBoolean] using h
    subst hn
    rw [colorWord_num]
    simp
  | str s =>
    have hs : s.data = [] := by simpa [toBoolean] using h
    have hs2 : s = "" := String.ext hs
    subst hs2
    rfl
  | nativeFn name => simp [toBoolean] at h
  | objectPrototype => simp [toBoolean] at h

/-- The callback of the renderer colours a token by the count stored under
its lower-cased form, or by 0 when the map has no such key. -/
theorem colorToken_eq (chalk : Chalk) (wordCounts : JSObject) (t : String) :
    colorToken chalk wordCounts t
      = colorWord chalk t (storedCount wordCounts (toLowerCase t)) := by
  show colorWord chalk t (orElse (get wordCounts (toLowerCase t)) (JSVal.num 0)) = _
  cases hown : getOwn wordCounts (toLowerCase t) with
  | some v =>
    have hget : get wordCounts (toLowerCase t) = v := by simp [get, hown]
    have hstored : storedCount wordCounts (toLowerCase t) = v := by
      simp [storedCount, hown]
    rw [hget, hstored, orElse]
    cases hb : toBoolean v
    · rw [if_neg (by simp), colorWord_of_falsy chalk t v hb, colorWord_num]
      simp
    · rw [if_pos rfl]
  | none =>
    have hget : get wordCounts (toLowerCase t) = objectPrototypeGet (toLowerCase t) := by
      simp [get, hown]
    have hstored : storedCount wordCounts (toLowerCase t) = JSVal.num 0 := by
      simp [storedCount, hown]
    have hnan := toNumber_objectPrototypeGet (toLowerCase t)
    rw [hget, hstored, orElse]
    cases hb : toBoolean (objectPrototypeGet (toLowerCase t))
    · rw [if_neg (by simp)]
    · rw [if_pos rfl, colorWord_of_toNumber_none chalk t _ hnan, colorWord_num]
      simp

/-- C7: for every document and every Frequency Map, each token `t` of each
rendered line is emitted as `colorWord (t, c)`, with `t` in its original
casing and `c` the value stored in the map under the lower-cased token, or 0
if the map has no such key; a token absent from the map is emitted as it is,
unstyled. -/
theorem printColoredLines_tokens (chalk : Chalk) (content : String)
    (wordCounts : JSObject) :
    printColoredLines chalk content wordCounts
      = ((splitLines content).take 15).map (fun line =>
          join ((tokenize line).map
            (fun t => colorWord chalk t (storedCount wordCounts (toLowerCase t)))) " "
          ++ " ") ∧
    ∀ t : String, getOwn wordCounts (toLowerCase t) = none →
      colorToken chalk wordCounts t = t := by
  constructor
  · unfold printColoredLines outputLine
    have hfun : colorToken chalk wordCounts
        = fun t => colorWord chalk t (storedCount wordCounts (toLowerCase t)) := by
      funext t
      exact colorToken_eq chalk wordCounts t
    rw [hfun]
  · intro t ht
    rw [colorToken_eq, storedCount, ht, colorWord_num]
    simp

/-- Witness of C7: the token `Dog` with a map that only holds `cat`. -/
theorem printColoredLines_tokens_witness :
    getOwn [("cat", JSVal.num 2)] (toLowerCase "Dog") = none ∧
      colorToken ansiChalk [("cat", JSVal.num 2)] "Dog" = "Dog" :=
  ⟨by decide,
   (printColoredLines_tokens ansiChalk "Dog cat" [("cat", JSVal.num 2)]).2 "Dog"
     (by decide)⟩

theorem joinLoop_succ (sep : String) (xs : List String) :
    ∀ (k : Nat) (r : String),
      joinLoop sep (k + 1) r xs = String.intercalate.go r sep xs := by
  induction xs with
  | nil => intro k r; rfl
  | cons x xs ih =>
    intro k r
    rw [joinLoop, ih, if_pos (Nat.succ_pos k)]
    rfl

/-- The model of `Array.prototype.join` puts the separator between every two
consecutive elements, and nowhere else. -/
theorem join_eq_intercalate (xs : List String) (sep : String) :
    join xs sep = String.intercalate sep xs := by
  cases xs with
  | nil => rfl
  | cons x xs =>
    have hx : ("" : String) ++ x = x := String.ext (by simp)
    rw [join, joinLoop, joinLoop_succ, if_neg (Nat.lt_irrefl 0), hx]
    rfl

theorem tokenize_eq_nil (line : String) (h : ∀ c ∈ line.data, isWordChar c = false) :
    tokenize line = [] := by
  rw [tokenize_eq_runsAfter, runsAfter_eq_nil _ h]
  rfl

/-- C8: every emitted line is the styled tokens of the selected line, joined
by one space, followed by one trailing space; a line without word tokens
(empty, or made of non-word characters only) gives the line that consists of
exactly one space. -/
theorem printColoredLines_join (chalk : Chalk) (content : String)
    (wordCounts : JSObject) :
    printColoredLines chalk content wordCounts
      = ((splitLines content).take 15).map (fun line =>
          String.intercalate " " ((tokenize line).map (colorToken chalk wordCounts))
            ++ " ") ∧
    ∀ line : String, (∀ c ∈ line.data, isWordChar c = false) →
      outputLine chalk wordCounts line = " " := by
  constructor
  · unfold printColoredLines outputLine
    simp only [join_eq_intercalate]
  · intro line hline
    rw [outputLine, tokenize_eq_nil line hline]
    rfl

/-- Witness of C8: the line `?!` has no word token and is rendered as one
space. -/
theorem printColoredLines_join_witness :
    (∀ c ∈ "?!".data, isWordChar c = false) ∧
      outputLine ansiChalk [("cat", JSVal.num 2)] "?!" = " " :=
  ⟨by decide,
   (printColoredLines_join ansiChalk "cat\n?!" [("cat", JSVal.num 2)]).2 "?!"
     (by decide)⟩

/-- The loop of `split('\n')` always closes a last piece. -/
theorem splitLinesLoop_ne_nil (rest : List Char) :
    ∀ cur : List Char, splitLinesLoop cur rest ≠ [] := by
  induction rest with
  | nil => intro cur; simp [splitLinesLoop]
  | cons c rest ih =>
    intro cur
    rw [splitLinesLoop]
    split
    · exact List.cons_ne_nil _ _
    · exact ih _

/-- Every text, the empty one included, has at least one line. -/
theorem splitLines_length_pos (content : String) : 1 ≤ (splitLines content).length := by
  rw [splitLines, List.length_map]
  exact List.length_pos.mpr (splitLinesLoop_ne_nil _ _)

/-- C9: for every document with `n` lines (its pieces when split on the line
feed), `printColoredLines` emits exactly `min 15 n` lines, the `i`-th of which
is the rendering of the `i`-th line of the document; a document with fewer
than 15 lines gives exactly `n` lines. -/
theorem printColoredLines_lines (chalk : Chalk) (content : String)
    (wordCounts : JSObject) :
    (printColoredLines chalk content wordCounts).length
      = min 15 (splitLines content).length ∧
    (∀ i : Nat, i < min 15 (splitLines content).length →
      (printColoredLines chalk content wordCounts)[i]?
        = ((splitLines content)[i]?).map (outputLine chalk wordCounts)) ∧
    ((splitLines content).length < 15 →
      (printColoredLines chalk content wordCounts).length
        = (splitLines content).length) := by
  have hlen : (printColoredLines chalk content wordCounts).length
      = min 15 (splitLines content).length := by
    simp [printColoredLines, List.length_take]
  refine ⟨hlen, ?_, ?_⟩
  · intro i hi
    have hi15 : i < 15 := lt_of_lt_of_le hi (Nat.min_le_left _ _)
    simp [printColoredLines, List.getElem?_map, List.getElem?_take, hi15]
  · intro hn
    rw [hlen]
    omega

/-- Witness of C9: a document of two lines gives two output lines, the second
of which renders the second line. -/
theorem printColoredLines_lines_witness :
    (1 < min 15 (splitLines "cat dog cat\nbird").length ∧
      (printColoredLines ansiChalk "cat dog cat\nbird" [("cat", JSVal.num 2)])[1]?
        = ((splitLines "cat dog cat\nbird")[1]?).map
            (outputLine ansiChalk [("cat", JSVal.num 2)])) ∧
    ((splitLines "cat dog cat\nbird").length < 15 ∧
      (printColoredLines ansiChalk "cat dog cat\nbird" [("cat", JSVal.num 2)]).length
        = (splitLines "cat dog cat\nbird").length) :=
  ⟨⟨by decide,
    (printColoredLines_lines ansiChalk "cat dog cat\nbird" [("cat", JSVal.num 2)]).2.1 1
      (by decide)⟩,
   ⟨by decide,
    (printColoredLines_lines ansiChalk "cat dog cat\nbird" [("cat", JSVal.num 2)]).2.2
      (by decide)⟩⟩

/-- C10, as stated, fails: the empty text is split into one (empty) line, and
`printColoredLines` emits one output line for it, not zero. -/
theorem printColoredLines_empty_not_zero :
    (splitLines "").length = 1 ∧
      ¬ ((printColoredLines ansiChalk "" []).length = 0) := by
  decide

/-- C10, amended: the empty text has exactly one line, the empty one, so
`printColoredLines` emits exactly one output line for it, made of one space;
and no document at all yields zero output lines. -/
theorem printColoredLines_empty (chalk : Chalk) (wordCounts : JSObject) :
    splitLines "" = [""] ∧
    printColoredLines chalk "" wordCounts = [" "] ∧
    ∀ content : String, 1 ≤ (printColoredLines chalk content wordCounts).length := by
  refine ⟨rfl, rfl, ?_⟩
  intro content
  have h := splitLines_length_pos content
  simp only [printColoredLines, List.length_map, List.length_take]
  omega

/-! ## The frequency counter `getWordCounts` on inherited property names -/

/-- C1, evaluated where it fails: the text `__proto__` has one token, yet the
map built from it stores no count at all, so the stored counts sum to 0; and
the text `constructor` has one token, yet the value stored for it is a string,
not the count 1. -/
theorem getWordCounts_inherited_names :
    tokenize "__proto__" = ["__proto__"] ∧
    getWordCounts "__proto__" = [] ∧
    tokenize "constructor" = ["constructor"] ∧
    getWordCounts "constructor"
      = [("constructor", JSVal.str "function Object() \x7b [native code] \x7d1")] := by
  decide

/-- C2, evaluated where it fails: in `a __proto__` a token lower-cases to
`__proto__`, yet the map has no such key; in `Constructor constructor` two
tokens lower-case to `constructor`, yet the value stored under that key is a
string, not the number 2. -/
theorem getWordCounts_key_value_mismatch :
    "__proto__" ∈ (tokenize "a __proto__").map toLowerCase ∧
    getOwn (getWordCounts "a __proto__") "__proto__" = none ∧
    getWordCounts "a __proto__" = [("a", JSVal.num 1)] ∧
    (tokenize "Constructor constructor").map toLowerCase
      = ["constructor", "constructor"] ∧
    getWordCounts "Constructor constructor"
      = [("constructor", JSVal.str "function Object() \x7b [native code] \x7d11")] := by
  decide

/-! ## The concrete scenario, and texts without words -/

/-- C13: for the input `cat dog cat`, line feed, `bird`, `getWordCounts`
returns exactly the map with `cat: 2`, `dog: 1`, `bird: 1`; the pipeline emits
exactly two lines; the first is `cat dog cat ` with both `cat` in the common
style and `dog` in the rare style, the second is `bird ` in the rare style. -/
theorem processFile_cat_dog (chalk : Chalk) :
    getWordCounts "cat dog cat\nbird"
      = [("cat", JSVal.num 2), ("dog", JSVal.num 1), ("bird", JSVal.num 1)] ∧
    processFile chalk "cat dog cat\nbird"
      = [chalk.green "cat" ++ " " ++ chalk.blue "dog" ++ " " ++ chalk.green "cat" ++ " ",
         chalk.blue "bird" ++ " "] ∧
    (processFile chalk "cat dog cat\nbird").length = 2 ∧
    processFile plainChalk "cat dog cat\nbird" = ["cat dog cat ", "bird "] := by
  exact ⟨by decide, rfl, rfl, by decide⟩

/-- C14: for every text that is empty or holds non-word characters only, the
tokenizer yields the empty sequence and `getWordCounts` returns the empty
map. -/
theorem getWordCounts_no_words (content : String)
    (h : ∀ c ∈ content.data, isWordChar c = false) :
    tokenize content = [] ∧ getWordCounts content = [] := by
  have htok := tokenize_eq_nil content h
  refine ⟨htok, ?_⟩
  rw [getWordCounts, htok]
  rfl

/-- Witness of C14 on a text of blanks and punctuation, and on the empty
text. -/
theorem getWordCounts_no_words_witness :
    ((∀ c ∈ " ,;\n!? ".data, isWordChar c = false) ∧
      tokenize " ,;\n!? " = [] ∧ getWordCounts " ,;\n!? " = []) ∧
    ((∀ c ∈ "".data, isWordChar c = false) ∧
      tokenize "" = [] ∧ getWordCounts "" = []) :=
  ⟨⟨by decide, getWordCounts_no_words " ,;\n!? " (by decide)⟩,
   ⟨by decide, getWordCounts_no_words "" (by decide)⟩⟩

/-! ## The category chosen by `colorWord` -/

/-- On an integer count, `colorWord` applies the styling of the category that
the classifier of the specification gives to that count. -/
theorem colorWord_eq_classify (chalk : Chalk) (w : String) (c : Int) :
    colorWord chalk w (JSVal.num c) = applyCategory chalk (classify c) w := by
  rw [colorWord_num, classify]
  by_cases h1 : c = 1
  · simp [h1, applyCategory]
  · by_cases h2 : 2 ≤ c ∧ c ≤ 5
    · simp [h1, h2, applyCategory]
    · by_cases h3 : 5 < c
      · simp [h1, h2, h3, applyCategory]
      · simp [h1, h2, h3, applyCategory]

/-- C15: the category chosen by `colorWord` depends on the count alone: for
every count there is one category such that, for all words (and whatever the
styling functions are), the result is the styling of that category applied to
the given word. -/
theorem colorWord_category_of_count (count : JSVal) :
    ∃ cat : Category, ∀ (chalk : Chalk) (w : String),
      colorWord chalk w count = applyCategory chalk cat w := by
  by_cases h1 : count = JSVal.num 1
  · exact ⟨Category.rare, fun chalk w => by simp [colorWord, h1, applyCategory]⟩
  · by_cases h2 : (geNum count 2 && leNum count 5) = true
    · exact ⟨Category.common, fun chalk w => by simp [colorWord, h1, h2, applyCategory]⟩
    · by_cases h3 : gtNum count 5 = true
      · exact ⟨Category.frequent,
          fun chalk w => by simp [colorWord, h1, h2, h3, applyCategory]⟩
      · exact ⟨Category.none, fun chalk w => by simp [colorWord, h1, h2, h3, applyCategory]⟩

/-- C20: on integer counts the category chosen by `colorWord` is the one of
the classifier, which is monotone for the order `none < rare < common <
frequent`; and every count `≤ 0`, negative ones included, is in the category
`none`: the word is returned unstyled. -/
theorem colorWord_monotone (chalk : Chalk) (w : String) :
    (∀ c : Int, colorWord chalk w (JSVal.num c) = applyCategory chalk (classify c) w) ∧
    (∀ c1 c2 : Int, c1 ≤ c2 → (classify c1).rank ≤ (classify c2).rank) ∧
    (∀ c : Int, c ≤ 0 →
      classify c = Category.none ∧ colorWord chalk w (JSVal.num c) = w) := by
  refine ⟨colorWord_eq_classify chalk w, ?_, ?_⟩
  · intro c1 c2 h
    unfold classify
    split_ifs <;> simp only [Category.rank] <;> omega
  · intro c hc
    have hcat : classify c = Category.none := by
      unfold classify
      split_ifs <;> first | rfl | omega
    exact ⟨hcat, by rw [colorWord_eq_classify, hcat]; rfl⟩

/-- Witness of C20 at the counts -3 and 7, and at the count -3 alone. -/
theorem colorWord_monotone_witness :
    ((-3 : Int) ≤ 7 ∧ (classify (-3)).rank ≤ (classify 7).rank) ∧
    ((-3 : Int) ≤ 0 ∧
      classify (-3) = Category.none ∧ colorWord ansiChalk "cat" (JSVal.num (-3)) = "cat") :=
  ⟨⟨by decide, (colorWord_monotone ansiChalk "cat").2.1 (-3) 7 (by decide)⟩,
   ⟨by decide, (colorWord_monotone ansiChalk "cat").2.2 (-3) (by decide)⟩⟩

/-! ## The pipeline on inherited property names -/

/-- C11, evaluated where it fails: the word `constructor` occurs 6 times in
the document, the count stored for it is a string, and every occurrence is
emitted unstyled, not in red; a word that is no inherited name, 6 times, is
red. -/
theorem processFile_frequent_constructor :
    ((tokenize "constructor Constructor constructor\nconstructor constructor constructor").map
      toLowerCase).count "constructor" = 6 ∧
    processFile ansiChalk "constructor Constructor constructor\nconstructor constructor constructor"
      = ["constructor Constructor constructor ", "constructor constructor constructor "] ∧
    processFile ansiChalk "cat\ncat cat cat cat cat"
      = ["\x1b[31mcat\x1b[39m ",
         "\x1b[31mcat\x1b[39m \x1b[31mcat\x1b[39m \x1b[31mcat\x1b[39m \x1b[31mcat\x1b[39m \x1b[31mcat\x1b[39m "] := by
  decide

/-- C16, evaluated where it fails: in the document `__proto__ constructor`,
rendered with the map built from it, the value looked up for `__proto__` is
`Object.prototype` and the one for `constructor` is a string; neither is a
count `≥ 1`, both words fall through `colorWord` and are emitted unstyled. -/
theorem processFile_unstyled_inherited :
    orElse (get (getWordCounts "__proto__ constructor") "__proto__") (JSVal.num 0)
      = JSVal.objectPrototype ∧
    orElse (get (getWordCounts "__proto__ constructor") "constructor") (JSVal.num 0)
      = JSVal.str "function Object() \x7b [native code] \x7d1" ∧
    processFile ansiChalk "__proto__ constructor" = ["__proto__ constructor "] := by
  decide

/-! ## Closed form of `getWordCounts` -/

theorem getWordCounts_eq_foldl (content : String) :
    getWordCounts content = ((tokenize content).map toLowerCase).foldl countStep [] := by
  rw [getWordCounts, List.foldl_map]
  rfl

theorem mem_firstOccurrences (k : String) (l : List String) :
    k ∈ firstOccurrences l ↔ k ∈ l := by
  induction l with
  | nil => simp [firstOccurrences]
  | cons j l ih =>
    by_cases h : k = j
    · simp [firstOccurrences, h]
    · simp [firstOccurrences, List.mem_filter, ih, h]

theorem firstOccurrences_append_singleton (l : List String) (w : String) :
    firstOccurrences (l ++ [w])
      = if w ∈ l then firstOccurrences l else firstOccurrences l ++ [w] := by
  induction l with
  | nil => simp [firstOccurrences]
  | cons k l ih =>
    rw [List.cons_append, firstOccurrences, ih, firstOccurrences]
    by_cases hk : w = k
    · subst hk
      by_cases hl : w ∈ l
      · simp [hl]
      · simp [hl, List.filter_append]
    · by_cases hl : w ∈ l
      · simp [hl]
      · simp [hl, hk, List.filter_append]

theorem lookup_map_key (f : String → JSVal) (w : String) (l : List String) :
    List.lookup w (l.map (fun k => (k, f k))) = if w ∈ l then some (f w) else none := by
  induction l with
  | nil => simp
  | cons k l ih =>
    by_cases h : w = k
    · subst h
      simp [List.lookup]
    · have hb : (w == k) = false := by simpa using h
      simp [List.lookup, hb, ih, h]

/-- The first occurrence of a word stores the value `countValue word 1`. -/
theorem addOne_first (w : String) :
    addOne (orElse (objectPrototypeGet w) (JSVal.num 0)) = countValue w 1 := by
  unfold countValue objectPrototypeGet
  split_ifs <;> rfl

/-- A later occurrence of a word turns `countValue word n` into
`countValue word (n + 1)`. -/
theorem addOne_next (w : String) (n : Nat) (hn : 1 ≤ n) :
    addOne (orElse (countValue w n) (JSVal.num 0)) = countValue w (n + 1) := by
  unfold countValue
  cases h : toPrimitive (objectPrototypeGet w) with
  | str s =>
    have hne : (s ++ String.mk (List.replicate n '1')).data ≠ [] := by
      obtain ⟨m, rfl⟩ : ∃ m, n = m + 1 := ⟨n - 1, by omega⟩
      simp [List.replicate_succ]
    have htrue : toBoolean (JSVal.str (s ++ String.mk (List.replicate n '1'))) = true := by
      simp only [toBoolean, decide_eq_true_eq]
      exact hne
    simp only [orElse, htrue, if_true, addOne, toPrimitive]
    congr 1
    apply String.ext
    simp [List.replicate_succ']
  | num m =>
    have htrue : toBoolean (JSVal.num (n : Int)) = true := by
      simp [toBoolean]; omega
    simp only [orElse, htrue, if_true, addOne, toPrimitive]
    simp
  | undefined =>
    have htrue : toBoolean (JSVal.num (n : Int)) = true := by
      simp [toBoolean]; omega
    simp only [orElse, htrue, if_true, addOne, toPrimitive]
    simp
  | nan =>
    have htrue : toBoolean (JSVal.num (n : Int)) = true := by
      simp [toBoolean]; omega
    simp only [orElse, htrue, if_true, addOne, toPrimitive]
    simp
  | nativeFn name =>
    have htrue : toBoolean (JSVal.num (n : Int)) = true := by
      simp [toBoolean]; omega
    simp only [orElse, htrue, if_true, addOne, toPrimitive]
    simp
  | objectPrototype =>
    have htrue : toBoolean (JSVal.num (n : Int)) = true := by
      simp [toBoolean]; omega
    simp only [orElse, htrue, if_true, addOne, toPrimitive]
    simp

theorem getOwn_wordCountsOf (ks : List String) (w : String) :
    getOwn (wordCountsOf ks) w
      = if w ∈ ks ∧ w ≠ "__proto__" then some (countValue w (ks.count w)) else none := by
  unfold getOwn wordCountsOf
  rw [lookup_map_key (fun k => countValue k (ks.count k))]
  simp [mem_firstOccurrences, List.mem_filter]

/-- One turn of the loop keeps the closed form. -/
theorem countStep_wordCountsOf (ks : List String) (w : String) :
    countStep (wordCountsOf ks) w = wordCountsOf (ks ++ [w]) := by
  have hown := getOwn_wordCountsOf ks w
  by_cases hP : w = "__proto__"
  · have hnone : getOwn (wordCountsOf ks) w = none := by
      rw [hown, if_neg (fun h => h.2 hP)]
    have hfilter : (ks ++ [w]).filter (fun k => k ≠ "__proto__")
        = ks.filter (fun k => k ≠ "__proto__") := by
      simp [List.filter_append, hP]
    unfold countStep set
    rw [hnone]
    simp only [Option.isSome_none, Bool.false_eq_true, if_false, hP, if_true]
    rw [← hP]
    unfold wordCountsOf
    rw [hfilter]
    apply List.map_congr_left
    intro k hk
    have hk2 : k ≠ "__proto__" := by
      have := (mem_firstOccurrences k _).mp hk
      simpa using (List.mem_filter.mp this).2
    have hkw : k ≠ w := by rw [hP]; exact hk2
    simp [List.count_append, hkw]
  · by_cases hmem : w ∈ ks
    · have hsome : getOwn (wordCountsOf ks) w = some (countValue w (ks.count w)) := by
        rw [hown, if_pos ⟨hmem, hP⟩]
      have hget : get (wordCountsOf ks) w = countValue w (ks.count w) := by
        simp [get, hsome]
      have hpos : 1 ≤ ks.count w := List.count_pos_iff.mpr hmem
      have hfilter : (ks ++ [w]).filter (fun k => k ≠ "__proto__")
          = ks.filter (fun k => k ≠ "__proto__") ++ [w] := by
        simp [List.filter_append, hP]
      have hmemf : w ∈ ks.filter (fun k => k ≠ "__proto__") := by
        simp [List.mem_filter, hmem, hP]
      unfold countStep set
      rw [hsome, hget, addOne_next w _ hpos]
      simp only [Option.isSome_some, if_true]
      unfold wordCountsOf
      rw [hfilter, firstOccurrences_append_singleton, if_pos hmemf, List.map_map]
      apply List.map_congr_left
      intro k hk
      by_cases hkw : k = w
      · subst hkw
        simp [List.count_append]
      · simp [List.count_append, hkw]
    · have hnone : getOwn (wordCountsOf ks) w = none := by
        rw [hown, if_neg (fun h => hmem h.1)]
      have hget : get (wordCountsOf ks) w = objectPrototypeGet w := by
        simp [get, hnone]
      have hfilter : (ks ++ [w]).filter (fun k => k ≠ "__proto__")
          = ks.filter (fun k => k ≠ "__proto__") ++ [w] := by
        simp [List.filter_append, hP]
      have hmemf : w ∉ ks.filter (fun k => k ≠ "__proto__") := by
        simp [List.mem_filter, hmem]
      unfold countStep set
      rw [hnone, hget, addOne_first]
      simp only [Option.isSome_none, Bool.false_eq_true, if_false, hP]
      unfold wordCountsOf
      rw [hfilter, firstOccurrences_append_singleton, if_neg hmemf, List.map_append]
      congr 1
      · apply List.map_congr_left
        intro k hk
        have hk2 : k ∈ ks := by
          have := (mem_firstOccurrences k _).mp hk
          exact (List.mem_filter.mp this).1
        have hkw : k ≠ w := fun h => hmem (h ▸ hk2)
        simp [List.count_append, hkw]
      · simp [List.count_append, List.count_eq_zero_of_not_mem hmem]

theorem foldl_countStep (ks : List String) :
    ks.foldl countStep [] = wordCountsOf ks := by
  induction ks using List.reverseRecOn with
  | nil => rfl
  | append_singleton ks w ih =>
    rw [List.foldl_append, ih]
    exact countStep_wordCountsOf ks w

/-- The closed form of `getWordCounts`: the distinct lower-cased tokens other
than `__proto__`, in the order of their first occurrences, each with
`countValue` at its number of occurrences. -/
theorem getWordCounts_eq_wordCountsOf (content : String) :
    getWordCounts content = wordCountsOf ((tokenize content).map toLowerCase) := by
  rw [getWordCounts_eq_foldl, foldl_countStep]

/-! ## Enumeration order of the keys -/

theorem keys_wordCountsOf (ks : List String) (h : "__proto__" ∉ ks) :
    (wordCountsOf ks).map Prod.fst = firstOccurrences ks := by
  have hfilter : ks.filter (fun k => k ≠ "__proto__") = ks := by
    rw [List.filter_eq_self]
    intro k hk
    have : k ≠ "__proto__" := fun hkP => h (hkP ▸ hk)
    simpa using this
  unfold wordCountsOf
  rw [hfilter, List.map_map]
  exact List.map_id _

/-- C17, as stated, fails: in `In 1776 and 10` the lower-cased tokens first
occur in the order `in`, `1776`, `and`, `10`, but the keys of the map are
enumerated in the order `10`, `1776`, `in`, `and`. -/
theorem ownKeys_digit_tokens :
    firstOccurrences ((tokenize "In 1776 and 10").map toLowerCase)
      = ["in", "1776", "and", "10"] ∧
    (getWordCounts "In 1776 and 10").map Prod.fst = ["in", "1776", "and", "10"] ∧
    ownKeys (getWordCounts "In 1776 and 10") = ["10", "1776", "in", "and"] ∧
    ¬ (ownKeys (getWordCounts "In 1776 and 10")
        = firstOccurrences ((tokenize "In 1776 and 10").map toLowerCase)) := by
  decide

theorem firstOccurrences_filter (p : String → Bool) (l : List String) :
    firstOccurrences (l.filter p) = (firstOccurrences l).filter p := by
  induction l with
  | nil => rfl
  | cons a l ih =>
    by_cases ha : p a = true
    · rw [List.filter_cons_of_pos ha, firstOccurrences, firstOccurrences,
        List.filter_cons_of_pos ha, ih, List.filter_filter, List.filter_filter]
      congr 1
      apply List.filter_congr
      intro k _
      exact Bool.and_comm _ _
    · rw [List.filter_cons_of_neg ha, firstOccurrences, List.filter_cons_of_neg ha, ih,
        List.filter_filter]
      apply List.filter_congr
      intro k _
      by_cases hk : k = a
      · subst hk
        simp [ha]
      · simp [hk]

/-- The keys of the closed form, in insertion order: the first occurrences of
the lower-cased tokens, restricted to the tokens that are keys. -/
theorem keys_wordCountsOf_present (ks : List String) :
    (wordCountsOf ks).map Prod.fst
      = (firstOccurrences ks).filter (fun k => (getOwn (wordCountsOf ks) k).isSome) := by
  have hkeys : (wordCountsOf ks).map Prod.fst
      = (firstOccurrences ks).filter (fun k => decide (k ≠ "__proto__")) := by
    unfold wordCountsOf
    rw [List.map_map, firstOccurrences_filter]
    exact List.map_id _
  rw [hkeys]
  apply List.filter_congr
  intro k hk
  have hmem : k ∈ ks := (mem_firstOccurrences k ks).mp hk
  rw [getOwn_wordCountsOf]
  by_cases hP : k = "__proto__"
  · simp [hP]
  · simp [hP, hmem]

/-- C17, amended: for every text, the keys of `getWordCounts` are enumerated
as follows: first the keys that are array indices (canonical decimal numerals
below `2 ^ 32 - 1`, such as `10` and `1776`) in ascending numeric order, then
the other keys in the order of the first occurrence of the lower-cased tokens
they are; the insertion order of the keys is that order of first occurrence;
every key is visited once; every lower-cased token other than `__proto__` is
a key; and when no lower-cased token is an array index the keys are visited
in insertion order. -/
theorem ownKeys_getWordCounts (content : String) :
    ownKeys (getWordCounts content)
      = (((firstOccurrences ((tokenize content).map toLowerCase)).filter
            (fun k => (getOwn (getWordCounts content) k).isSome)).filter
            isArrayIndex).insertionSort (fun a b => indexValue a ≤ indexValue b)
        ++ ((firstOccurrences ((tokenize content).map toLowerCase)).filter
            (fun k => (getOwn (getWordCounts content) k).isSome)).filter
            (fun k => !isArrayIndex k) ∧
    List.Sorted (fun a b => indexValue a ≤ indexValue b)
      ((((firstOccurrences ((tokenize content).map toLowerCase)).filter
            (fun k => (getOwn (getWordCounts content) k).isSome)).filter
            isArrayIndex).insertionSort (fun a b => indexValue a ≤ indexValue b)) ∧
    (getWordCounts content).map Prod.fst
      = (firstOccurrences ((tokenize content).map toLowerCase)).filter
          (fun k => (getOwn (getWordCounts content) k).isSome) ∧
    (ownKeys (getWordCounts content)).Perm ((getWordCounts content).map Prod.fst) ∧
    (∀ k ∈ (tokenize content).map toLowerCase, k ≠ "__proto__" →
      (getOwn (getWordCounts content) k).isSome = true) ∧
    ((∀ k ∈ (tokenize content).map toLowerCase, isArrayIndex k = false) →
      ownKeys (getWordCounts content) = (getWordCounts content).map Prod.fst) := by
  have hkeys : (getWordCounts content).map Prod.fst
      = (firstOccurrences ((tokenize content).map toLowerCase)).filter
          (fun k => (getOwn (getWordCounts content) k).isSome) := by
    rw [getWordCounts_eq_wordCountsOf]
    exact keys_wordCountsOf_present _
  have hown : ownKeys (getWordCounts content)
      = (((getWordCounts content).map Prod.fst).filter isArrayIndex).insertionSort
          (fun a b => indexValue a ≤ indexValue b)
        ++ ((getWordCounts content).map Prod.fst).filter (fun k => !isArrayIndex k) := rfl
  haveI : IsTotal String (fun a b => indexValue a ≤ indexValue b) :=
    ⟨fun a b => Nat.le_total _ _⟩
  haveI : IsTrans String (fun a b => indexValue a ≤ indexValue b) :=
    ⟨fun a b c hab hbc => Nat.le_trans hab hbc⟩
  refine ⟨?_, List.sorted_insertionSort _ _, hkeys, ?_, ?_, ?_⟩
  · rw [hown, hkeys]
  · rw [hown]
    exact ((List.perm_insertionSort _ _).append (List.Perm.refl _)).trans
      (List.filter_append_perm _ _)
  · intro k hk hP
    rw [getWordCounts_eq_wordCountsOf, getOwn_wordCountsOf, if_pos ⟨hk, hP⟩]
    rfl
  · intro hidx
    have hall : ∀ k ∈ (getWordCounts content).map Prod.fst, isArrayIndex k = false := by
      intro k hk
      rw [hkeys] at hk
      exact hidx k ((mem_firstOccurrences k _).mp (List.mem_filter.mp hk).1)
    have hnil : ((getWordCounts content).map Prod.fst).filter isArrayIndex = [] := by
      rw [List.filter_eq_nil_iff]
      intro k hk
      simp [hall k hk]
    have hself : ((getWordCounts content).map Prod.fst).filter (fun k => !isArrayIndex k)
        = (getWordCounts content).map Prod.fst := by
      rw [List.filter_eq_self]
      intro k hk
      simp [hall k hk]
    rw [hown, hnil, hself]
    rfl

/-- Witness of C17, amended: on `b __PROTO__ 1776 a 10 B` the lower-cased
token `b` is a key; on `the cat The dog`, which has no array index, the keys
are visited in insertion order. -/
theorem ownKeys_getWordCounts_witness :
    (("b" ∈ (tokenize "b __PROTO__ 1776 a 10 B").map toLowerCase ∧ "b" ≠ "__proto__") ∧
      (getOwn (getWordCounts "b __PROTO__ 1776 a 10 B") "b").isSome = true ∧
      ownKeys (getWordCounts "b __PROTO__ 1776 a 10 B") = ["10", "1776", "b", "a"]) ∧
    ((∀ k ∈ (tokenize "the cat The dog").map toLowerCase, isArrayIndex k = false) ∧
      ownKeys (getWordCounts "the cat The dog")
        = (getWordCounts "the cat The dog").map Prod.fst ∧
      (getWordCounts "the cat The dog").map Prod.fst = ["the", "cat", "dog"]) :=
  ⟨⟨⟨by decide, by decide⟩,
    (ownKeys_getWordCounts "b __PROTO__ 1776 a 10 B").2.2.2.2.1 "b" (by decide) (by decide),
    (ownKeys_getWordCounts "b __PROTO__ 1776 a 10 B").1.trans (by decide)⟩,
   ⟨by decide,
    (ownKeys_getWordCounts "the cat The dog").2.2.2.2.2 (by decide),
    by decide⟩⟩

/-! ## Counting line by line -/

theorem takeWhile_append_sep (a b : List Char) (c : Char) (hc : isWordChar c = false) :
    (a ++ c :: b).takeWhile isWordChar = a.takeWhile isWordChar := by
  induction a with
  | nil => simp [List.takeWhile_cons, hc]
  | cons x a ih =>
    simp only [List.cons_append, List.takeWhile_cons, ih]

theorem runsAfter_append_sep (a b : List Char) (c : Char) (hc : isWordChar c = false) :
    ∀ prev : Bool, runsAfter prev (a ++ c :: b) = runsAfter prev a ++ runsAfter false b := by
  induction a with
  | nil =>
    intro prev
    simp [runsAfter, hc]
  | cons x a ih =>
    intro prev
    have htake := takeWhile_append_sep (x :: a) b c hc
    simp only [List.cons_append] at htake
    rw [List.cons_append, runsAfter, runsAfter, ih, htake, List.append_assoc]

/-- The tokens of two texts joined by a line feed are the tokens of the first
followed by the tokens of the second. -/
theorem tokenize_append_line (a b : String) :
    tokenize (a ++ "\n" ++ b) = tokenize a ++ tokenize b := by
  have hdata : (a ++ "\n" ++ b).data = a.data ++ '\n' :: b.data := by
    simp [String.data_append]
  rw [tokenize_eq_runsAfter, tokenize_eq_runsAfter, tokenize_eq_runsAfter, hdata,
    runsAfter_append_sep _ _ _ (by decide), List.map_append]

/-- Away from the names that `Object.prototype` defines, the count of a key
in the map of two texts joined by a line feed is the sum of its counts in the
maps of the two texts. -/
theorem numericCount_append_line (a b key : String)
    (hkey : objectPrototypeGet key = JSVal.undefined) :
    numericCount (getWordCounts (a ++ "\n" ++ b)) key
      = numericCount (getWordCounts a) key + numericCount (getWordCounts b) key := by
  have hval : ∀ n : Nat, countValue key n = JSVal.num n := by
    intro n
    simp [countValue, hkey, toPrimitive]
  have hnum : ∀ ks : List String, numericCount (wordCountsOf ks) key = (ks.count key : Int) := by
    intro ks
    unfold numericCount
    rw [getOwn_wordCountsOf]
    by_cases hmem : key ∈ ks ∧ key ≠ "__proto__"
    · simp [hmem, hval]
    · have hP : key ≠ "__proto__" := by
        intro hP
        rw [hP] at hkey
        exact absurd hkey (by decide)
      have hnot : key ∉ ks := fun h => hmem ⟨h, hP⟩
      simp [hmem, List.count_eq_zero_of_not_mem hnot]
  rw [getWordCounts_eq_wordCountsOf, getWordCounts_eq_wordCountsOf,
    getWordCounts_eq_wordCountsOf, hnum, hnum, hnum, tokenize_append_line,
    List.map_append, List.count_append]
  push_cast
  rfl

/-- C18, evaluated where it fails: for the two lines `constructor` and
`Constructor` the tokens of the joined text are those of the first line
followed by those of the second, but the maps of the lines hold the string
ending in `1` under `constructor`, and the map of the joined text holds the
string ending in `11`: no value is a count, and the value of the whole is not
the sum 2 of the counts of the lines. -/
theorem getWordCounts_lines_constructor :
    tokenize ("constructor" ++ "\n" ++ "Constructor")
      = tokenize "constructor" ++ tokenize "Constructor" ∧
    getWordCounts "constructor"
      = [("constructor", JSVal.str "function Object() \x7b [native code] \x7d1")] ∧
    getWordCounts "Constructor"
      = [("constructor", JSVal.str "function Object() \x7b [native code] \x7d1")] ∧
    getWordCounts ("constructor" ++ "\n" ++ "Constructor")
      = [("constructor", JSVal.str "function Object() \x7b [native code] \x7d11")] ∧
    numericCount (getWordCounts ("constructor" ++ "\n" ++ "Constructor")) "constructor" = 0 := by
  decide

/-! ## Rendering without colour codes -/

theorem colorWord_plainChalk (w : String) (count : JSVal) :
    colorWord plainChalk w count = w := by
  unfold colorWord
  split_ifs <;> rfl

theorem outputLine_plainChalk (wordCounts : JSObject) (line : String) :
    outputLine plainChalk wordCounts line = join (tokenize line) " " ++ " " := by
  have hfun : colorToken plainChalk wordCounts = id := by
    funext t
    exact colorWord_plainChalk t _
  rw [outputLine, hfun, List.map_id]

theorem joinLoop_space_data (xs : List String) :
    ∀ (k : Nat) (r : String),
      (joinLoop " " (k + 1) r xs).data ++ [' ']
        = r.data ++ ' ' :: spaced (xs.map String.data) := by
  induction xs with
  | nil => intro k r; simp [joinLoop, spaced]
  | cons x xs ih =>
    intro k r
    rw [joinLoop, ih, if_pos (Nat.succ_pos k)]
    simp [spaced, String.data_append]

theorem join_space_data (t : String) (ts : List String) :
    (join (t :: ts) " " ++ " ").data = spaced ((t :: ts).map String.data) := by
  have h := joinLoop_space_data ts 0 ("" ++ t)
  rw [String.data_append, join, joinLoop, if_neg (Nat.lt_irrefl 0)]
  simpa [spaced, String.data_append] using h

theorem runsAfter_true_word (w : List Char) (hw : ∀ c ∈ w, isWordChar c = true) :
    runsAfter true w = [] := by
  induction w with
  | nil => rfl
  | cons x w ih =>
    have hx : isWordChar x = true := hw x (List.mem_cons_self _ _)
    have hrest : ∀ c ∈ w, isWordChar c = true := fun c hc => hw c (List.mem_cons_of_mem _ hc)
    simp [runsAfter, hx, ih hrest]

theorem runsAfter_false_word (w : List Char) (hne : w ≠ [])
    (hw : ∀ c ∈ w, isWordChar c = true) : runsAfter false w = [w] := by
  cases w with
  | nil => exact absurd rfl hne
  | cons x w =>
    have hx : isWordChar x = true := hw x (List.mem_cons_self _ _)
    have hrest : ∀ c ∈ w, isWordChar c = true := fun c hc => hw c (List.mem_cons_of_mem _ hc)
    have htake : (x :: w).takeWhile isWordChar = x :: w := by
      rw [List.takeWhile_eq_self_iff]
      exact hw
    rw [runsAfter, htake, hx, runsAfter_true_word w hrest]
    rfl

theorem runsAfter_spaced (ws : List (List Char))
    (hws : ∀ w ∈ ws, w ≠ [] ∧ ∀ c ∈ w, isWordChar c = true) :
    runsAfter false (spaced ws) = ws := by
  induction ws with
  | nil => rfl
  | cons w ws ih =>
    have hw := hws w (List.mem_cons_self _ _)
    have hrest : ∀ v ∈ ws, v ≠ [] ∧ ∀ c ∈ v, isWordChar c = true :=
      fun v hv => hws v (List.mem_cons_of_mem _ hv)
    rw [spaced, runsAfter_append_sep _ _ _ (by decide), runsAfter_false_word w hw.1 hw.2,
      ih hrest]
    rfl

theorem tokenize_join_tokenize (line : String) :
    tokenize (join (tokenize line) " " ++ " ") = tokenize line := by
  have hdata : (tokenize line).map String.data = runsAfter false line.data := by
    rw [tokenize_eq_runsAfter, List.map_map]
    exact List.map_id _
  cases htok : tokenize line with
  | nil => decide
  | cons t ts =>
    have hvalid : ∀ w ∈ (t :: ts).map String.data, w ≠ [] ∧ ∀ c ∈ w, isWordChar c = true := by
      intro w hw
      rw [← htok, hdata] at hw
      exact runsAfter_mem _ _ _ hw
    rw [tokenize_eq_runsAfter, join_space_data, runsAfter_spaced _ hvalid, List.map_map]
    exact List.map_id _

/-- C19: with styling taken as the identity, the output `P` of a line `L` is
the tokens of `L` joined by a space, plus a space; the tokens of `P` are the
tokens of `L`, and rendering `P` again yields `P`.  This holds for every
text `L`, and so for every line without line feed. -/
theorem outputLine_plain_idempotent (wordCounts wordCounts2 : JSObject) (line : String) :
    outputLine plainChalk wordCounts line = join (tokenize line) " " ++ " " ∧
    tokenize (outputLine plainChalk wordCounts line) = tokenize line ∧
    outputLine plainChalk wordCounts2 (outputLine plainChalk wordCounts line)
      = outputLine plainChalk wordCounts line := by
  refine ⟨outputLine_plainChalk wordCounts line, ?_, ?_⟩
  · rw [outputLine_plainChalk, tokenize_join_tokenize]
  · rw [outputLine_plainChalk wordCounts2, outputLine_plainChalk wordCounts,
      tokenize_join_tokenize]

/-! ## Case: counting and display -/

theorem char_cases (P : Char → Prop) (lo hi : Nat) (c : Char)
    (h : lo ≤ c.toNat ∧ c.toNat ≤ hi)
    (hP : ∀ n, lo ≤ n → n ≤ hi → P (Char.ofNat n)) : P c := by
  have := hP c.toNat h.1 h.2
  rwa [Char.ofNat_toNat] at this

theorem toLower_eq_self (c : Char) (h : ¬(65 ≤ c.toNat ∧ c.toNat ≤ 90)) :
    c.toLower = c := by
  unfold Char.toLower
  simp only [ge_iff_le]
  rw [if_neg h]

theorem toUpper_eq_self (c : Char) (h : ¬(97 ≤ c.toNat ∧ c.toNat ≤ 122)) :
    c.toUpper = c := by
  unfold Char.toUpper
  simp only [ge_iff_le]
  rw [if_neg h]

theorem isWordChar_toLower (c : Char) : isWordChar c.toLower = isWordChar c := by
  by_cases h : 65 ≤ c.toNat ∧ c.toNat ≤ 90
  · refine char_cases (fun c => isWordChar c.toLower = isWordChar c) 65 90 c h ?_
    intro n h1 h2
    interval_cases n <;> rfl
  · rw [toLower_eq_self c h]

theorem toLower_toLower (c : Char) : c.toLower.toLower = c.toLower := by
  by_cases h : 65 ≤ c.toNat ∧ c.toNat ≤ 90
  · refine char_cases (fun c => c.toLower.toLower = c.toLower) 65 90 c h ?_
    intro n h1 h2
    interval_cases n <;> rfl
  · rw [toLower_eq_self c h, toLower_eq_self c h]

theorem isWordChar_toUpper (c : Char) : isWordChar c.toUpper = isWordChar c := by
  by_cases h : 97 ≤ c.toNat ∧ c.toNat ≤ 122
  · refine char_cases (fun c => isWordChar c.toUpper = isWordChar c) 97 122 c h ?_
    intro n h1 h2
    interval_cases n <;> rfl
  · rw [toUpper_eq_self c h]

theorem toLower_toUpper (c : Char) : c.toUpper.toLower = c.toLower := by
  by_cases h : 97 ≤ c.toNat ∧ c.toNat ≤ 122
  · refine char_cases (fun c => c.toUpper.toLower = c.toLower) 97 122 c h ?_
    intro n h1 h2
    interval_cases n <;> rfl
  · rw [toUpper_eq_self c h]

theorem runsAfter_map (f : Char → Char) (hf : ∀ c, isWordChar (f c) = isWordChar c)
    (t : List Char) :
    ∀ prev : Bool, runsAfter prev (t.map f) = (runsAfter prev t).map (List.map f) := by
  have hcomp : isWordChar ∘ f = isWordChar := funext hf
  induction t with
  | nil => intro prev; rfl
  | cons x t ih =>
    intro prev
    have htake : (f x :: t.map f).takeWhile isWordChar
        = ((x :: t).takeWhile isWordChar).map f := by
      rw [← List.map_cons, List.takeWhile_map, hcomp]
    rw [List.map_cons, runsAfter, runsAfter, ih, htake, hf, List.map_append]
    cases (isWordChar x && !prev) <;> rfl

/-- A change of characters that keeps the class of every character and its
lower-case form does not change the lower-cased tokens. -/
theorem keys_map_text (f : Char → Char) (hf : ∀ c, isWordChar (f c) = isWordChar c)
    (hl : ∀ c, (f c).toLower = c.toLower) (content : String) :
    (tokenize (String.mk (content.data.map f))).map toLowerCase
      = (tokenize content).map toLowerCase := by
  have hfun : (toLowerCase ∘ String.mk ∘ List.map f) = (toLowerCase ∘ String.mk) := by
    funext r
    simp only [Function.comp, toLowerCase, List.map_map]
    congr 1
    exact List.map_congr_left (fun c _ => hl c)
  rw [tokenize_eq_runsAfter, tokenize_eq_runsAfter, runsAfter_map f hf, List.map_map,
    List.map_map, List.map_map]
  exact congrArg (fun g => List.map g (runsAfter false content.data)) hfun

theorem getWordCounts_map_text (f : Char → Char) (hf : ∀ c, isWordChar (f c) = isWordChar c)
    (hl : ∀ c, (f c).toLower = c.toLower) (content : String) :
    getWordCounts (String.mk (content.data.map f)) = getWordCounts content := by
  rw [getWordCounts_eq_foldl, getWordCounts_eq_foldl, keys_map_text f hf hl]

theorem colorToken_cases (chalk : Chalk) (wordCounts : JSObject) (t : String) :
    colorToken chalk wordCounts t = t ∨ colorToken chalk wordCounts t = chalk.blue t ∨
      colorToken chalk wordCounts t = chalk.green t ∨
      colorToken chalk wordCounts t = chalk.red t := by
  unfold colorToken colorWord
  simp only []
  split_ifs
  · exact Or.inr (Or.inl rfl)
  · exact Or.inr (Or.inr (Or.inl rfl))
  · exact Or.inr (Or.inr (Or.inr rfl))
  · exact Or.inl rfl

/-- C12, as stated, fails: the Kelvin sign (U+212A) is a letter and no word
character, and its lower-case form is the word character `k`; the text
`273 K` written with it has the single token `273`, and the same text with
every letter lower-cased has the tokens `273` and `k`, so the two maps
differ. -/
theorem getWordCounts_kelvin_sign :
    toLowerCaseText "273 \u212A" = "273 k" ∧
    getWordCounts "273 \u212A" = [("273", JSVal.num 1)] ∧
    getWordCounts (toLowerCaseText "273 \u212A")
      = [("273", JSVal.num 1), ("k", JSVal.num 1)] ∧
    ¬ (getWordCounts (toLowerCaseText "273 \u212A") = getWordCounts "273 \u212A") := by
  decide

/-- C12, amended: for every text, `getWordCounts` gives the same map for the
text, for the text with every ASCII letter lower-cased and for the text with
every ASCII letter upper-cased; `The` and `the` increment the same key; and
`printColoredLines` emits each token of a line as it stands in the line,
unstyled or styled by one of the three `chalk` functions. -/
theorem getWordCounts_ascii_case (chalk : Chalk) (wordCounts : JSObject)
    (content : String) :
    getWordCounts (lowerAsciiLetters content) = getWordCounts content ∧
    getWordCounts (upperAsciiLetters content) = getWordCounts content ∧
    getWordCounts "The the" = [("the", JSVal.num 2)] ∧
    printColoredLines chalk content wordCounts
      = ((splitLines content).take 15).map (fun line =>
          join ((tokenize line).map (colorToken chalk wordCounts)) " " ++ " ") ∧
    ∀ t : String,
      colorToken chalk wordCounts t = t ∨ colorToken chalk wordCounts t = chalk.blue t ∨
        colorToken chalk wordCounts t = chalk.green t ∨
        colorToken chalk wordCounts t = chalk.red t := by
  refine ⟨?_, ?_, by decide, rfl, colorToken_cases chalk wordCounts⟩
  · exact getWordCounts_map_text Char.toLower isWordChar_toLower toLower_toLower content
  · exact getWordCounts_map_text Char.toUpper isWordChar_toUpper toLower_toUpper content

/-! ## The extent of the defect: every name but `constructor` and `__proto__` -/

theorem isUpper_toLower (c : Char) : c.toLower.isUpper = false := by
  by_cases h : 65 ≤ c.toNat ∧ c.toNat ≤ 90
  · refine char_cases (fun c => c.toLower.isUpper = false) 65 90 c h ?_
    intro n h1 h2
    interval_cases n <;> rfl
  · rw [toLower_eq_self c h]
    have hval : c.val.toNat = c.toNat := rfl
    simp only [Char.isUpper, Bool.and_eq_false_imp, decide_eq_true_eq, decide_eq_false_iff_not,
      UInt32.le_def, Fin.le_def]
    intro h1 h2
    apply h
    constructor
    · have := h1
      simpa [Char.toNat, UInt32.toNat] using this
    · have := h2
      simpa [Char.toNat, UInt32.toNat] using this

/-- A lower-cased word names a property of `Object.prototype` only if it is
`constructor` or `__proto__`: every other inherited name holds a capital
letter. -/
theorem objectPrototypeGet_toLowerCase (t : String) :
    objectPrototypeGet (toLowerCase t) = JSVal.undefined ∨
      toLowerCase t = "constructor" ∨ toLowerCase t = "__proto__" := by
  by_cases h1 : toLowerCase t = "constructor"
  · exact Or.inr (Or.inl h1)
  · by_cases h2 : toLowerCase t = "__proto__"
    · exact Or.inr (Or.inr h2)
    · left
      have hno : (toLowerCase t).data.any Char.isUpper = false := by
        simp only [toLowerCase, List.any_eq_false, List.mem_map, forall_exists_index, and_imp,
          forall_apply_eq_imp_iff₂]
        intro c _
        simp [isUpper_toLower c]
      have hmeth : toLowerCase t ∉ objectPrototypeMethods := by
        intro hm
        have hall : ∀ m ∈ objectPrototypeMethods, m.data.any Char.isUpper = true := by decide
        rw [hall _ hm] at hno
        cases hno
      simp [objectPrototypeGet, h1, h2, hmeth]

/-- Away from the inherited names, the map of `getWordCounts` has a key exactly
for the lower-cased tokens, and it holds the number of tokens that lower-case
to the key. -/
theorem getOwn_getWordCounts (content key : String)
    (hkey : objectPrototypeGet key = JSVal.undefined) :
    getOwn (getWordCounts content) key
      = if key ∈ (tokenize content).map toLowerCase
        then some (JSVal.num (((tokenize content).map toLowerCase).count key))
        else none := by
  have hP : key ≠ "__proto__" := by
    intro hP
    rw [hP] at hkey
    exact absurd hkey (by decide)
  have hval : ∀ n : Nat, countValue key n = JSVal.num n := by
    intro n
    simp [countValue, hkey, toPrimitive]
  rw [getWordCounts_eq_wordCountsOf, getOwn_wordCountsOf, hval]
  simp [hP]

theorem bind_runsAfter_splitLinesLoop (rest : List Char) :
    ∀ cur : List Char,
      (splitLinesLoop cur rest).flatMap (runsAfter false) = runsAfter false (cur ++ rest) := by
  induction rest with
  | nil => intro cur; simp [splitLinesLoop]
  | cons c rest ih =>
    intro cur
    rw [splitLinesLoop]
    split
    · rename_i hc
      subst hc
      rw [List.flatMap_cons, ih, List.nil_append,
        runsAfter_append_sep _ _ _ (by decide)]
    · rw [ih, List.append_assoc]
      rfl

/-- The tokens of a line of a document are tokens of the document. -/
theorem mem_tokenize_of_line (content line t : String)
    (hline : line ∈ splitLines content) (ht : t ∈ tokenize line) :
    t ∈ tokenize content := by
  rw [tokenize_eq_runsAfter] at ht ⊢
  obtain ⟨r, hr, rfl⟩ := List.mem_map.mp ht
  refine List.mem_map.mpr ⟨r, ?_, rfl⟩
  rw [splitLines, List.mem_map] at hline
  obtain ⟨piece, hpiece, rfl⟩ := hline
  have h := bind_runsAfter_splitLinesLoop content.data []
  rw [List.nil_append] at h
  rw [← h, List.mem_flatMap]
  exact ⟨piece, hpiece, hr⟩

/-- Away from the inherited names the pipeline is consistent: a token of a
line of the document, rendered with the map built from the document, is
coloured by the number of tokens of the document with the same lower-case
form, which is at least 1. -/
theorem colorToken_getWordCounts (chalk : Chalk) (content line t : String)
    (hline : line ∈ splitLines content) (ht : t ∈ tokenize line)
    (hkey : objectPrototypeGet (toLowerCase t) = JSVal.undefined) :
    colorToken chalk (getWordCounts content) t
      = colorWord chalk t
          (JSVal.num (((tokenize content).map toLowerCase).count (toLowerCase t))) ∧
    1 ≤ ((tokenize content).map toLowerCase).count (toLowerCase t) := by
  have hmem : toLowerCase t ∈ (tokenize content).map toLowerCase :=
    List.mem_map.mpr ⟨t, mem_tokenize_of_line content line t hline ht, rfl⟩
  refine ⟨?_, List.count_pos_iff.mpr hmem⟩
  rw [colorToken_eq, storedCount, getOwn_getWordCounts content _ hkey, if_pos hmem]

end WordCount
